import Mathlib

/-!
Verification of the konva-selection repository's selection-and-transform core.

The TypeScript source (src/index.ts and the two unnamed prototype variants)
is shallowly embedded below:

* geometry utilities `haveIntersection`, `reverse` and `decompose` are
  translated directly from the source functions of the same names;
* the `KonvaSelection` class becomes a state record `SelectionState`
  (the `nodes` Map, the existence of the `transformer`, and the list of
  change notifications pushed on `selectionChange$`), with the methods
  `add`, `remove`, `clear`, the constructor `construct`, and the marquee
  step `updateDrag` translated operation by operation;
* the layer `dragstart`/`dragmove` group-move handlers become the
  explicit state-passing functions `dragStart`/`dragMove`/`dragRun` over
  the live node positions.

Numbers are ℚ where the code is pure arithmetic/comparison and ℝ where the
code calls Math.sqrt / Math.acos / Math.atan.  External Konva calls are
modelled by fields of the embedded node records: `clientRect` stands for
`node.getClientRect()`, `hasEntityName` for `node.hasName('entity')`,
`isSelectBox` for `node.id() === 'selectBox'`, and the select box's client
rect is the rectangle assembled from the normalized drag rectangle exactly
as `updateDrag` assembles it.
-/

namespace KonvaSelection

/-- An axis-aligned rectangle `{x, y, width, height}` as consumed by
`haveIntersection` (client rects and the select box rect). -/
structure Rect where
  x : ℚ
  y : ℚ
  width : ℚ
  height : ℚ
deriving DecidableEq, Repr

/-- Translation of `haveIntersection(r1, r2)`:
`!(r2.x > r1.x + r1.width || r2.x + r2.width < r1.x || r2.y > r1.y + r1.height || r2.y + r2.height < r1.y)`. -/
def haveIntersection (r1 r2 : Rect) : Bool :=
  !(decide (r2.x > r1.x + r1.width) || decide (r2.x + r2.width < r1.x) ||
    decide (r2.y > r1.y + r1.height) || decide (r2.y + r2.height < r1.y))

/-- A point `{x, y}` (Konva `Vector2d`). -/
structure Pt where
  x : ℚ
  y : ℚ
deriving DecidableEq, Repr

/-- The `{x1, y1, x2, y2}` record returned by `reverse`. -/
structure NormRect where
  x1 : ℚ
  y1 : ℚ
  x2 : ℚ
  y2 : ℚ
deriving DecidableEq, Repr

/-- The external `Math.abs`, modelled executably. -/
def mathAbs (q : ℚ) : ℚ :=
  if q < 0 then -q else q

lemma mathAbs_nonneg (q : ℚ) : 0 ≤ mathAbs q := by
  unfold mathAbs
  split <;> linarith

/-- Translation of `reverse(r1, r2)`: per axis, if the first coordinate is
greater than the second, set `r1x = r2x; r2x = r1x + Math.abs(r1x_old - r2x_old)`. -/
def reverse (r1 r2 : Pt) : NormRect :=
  let r1x := r1.x
  let r1y := r1.y
  let r2x := r2.x
  let r2y := r2.y
  let px : ℚ × ℚ :=
    if r1x > r2x then (r2x, r2x + mathAbs (r1x - r2x)) else (r1x, r2x)
  let py : ℚ × ℚ :=
    if r1y > r2y then (r2y, r2y + mathAbs (r1y - r2y)) else (r1y, r2y)
  { x1 := px.1, y1 := py.1, x2 := px.2, y2 := py.2 }

lemma haveIntersection_eq_true_iff (r1 r2 : Rect) :
    haveIntersection r1 r2 = true ↔
      (r2.x ≤ r1.x + r1.width ∧ r1.x ≤ r2.x + r2.width ∧
       r2.y ≤ r1.y + r1.height ∧ r1.y ≤ r2.y + r2.height) := by
  simp only [haveIntersection, Bool.not_eq_true', Bool.or_eq_false_iff,
    decide_eq_false_iff_not, not_lt]
  tauto

/-- C6: for axis-aligned rectangles with non-negative width and height the
intersection test of the source is commutative and reflexive, and rectangles
touching along an edge (`B.x = A.x + A.width`, with overlapping y-ranges)
count as intersecting. -/
theorem haveIntersection_comm_refl_touch (A B : Rect)
    (hA : 0 ≤ A.width ∧ 0 ≤ A.height) (hB : 0 ≤ B.width ∧ 0 ≤ B.height) :
    haveIntersection A B = haveIntersection B A ∧
    haveIntersection A A = true ∧
    (B.x = A.x + A.width → B.y ≤ A.y + A.height → A.y ≤ B.y + B.height →
      haveIntersection A B = true) := by
  obtain ⟨hAw, hAh⟩ := hA
  obtain ⟨hBw, hBh⟩ := hB
  refine ⟨?_, ?_, ?_⟩
  · have h : haveIntersection A B = true ↔ haveIntersection B A = true := by
      rw [haveIntersection_eq_true_iff, haveIntersection_eq_true_iff]
      constructor
      · rintro ⟨h1, h2, h3, h4⟩; exact ⟨h2, h1, h4, h3⟩
      · rintro ⟨h1, h2, h3, h4⟩; exact ⟨h2, h1, h4, h3⟩
    exact Bool.coe_iff_coe.mp h
  · rw [haveIntersection_eq_true_iff]
    refine ⟨by linarith, by linarith, by linarith, by linarith⟩
  · intro hx hy1 hy2
    rw [haveIntersection_eq_true_iff]
    refine ⟨by linarith, by linarith, hy1, hy2⟩

/-- Witness for C6 at concrete rectangles `⟨0,0,10,10⟩` and `⟨10,2,5,5⟩`
(the second touches the first along its right edge). -/
theorem haveIntersection_comm_refl_touch_witness :
    ((0 : ℚ) ≤ 10 ∧ (0 : ℚ) ≤ 10) ∧ ((0 : ℚ) ≤ 5 ∧ (0 : ℚ) ≤ 5) ∧
    (haveIntersection ⟨0, 0, 10, 10⟩ ⟨10, 2, 5, 5⟩ =
        haveIntersection ⟨10, 2, 5, 5⟩ ⟨0, 0, 10, 10⟩ ∧
      haveIntersection ⟨0, 0, 10, 10⟩ ⟨0, 0, 10, 10⟩ = true ∧
      ((10 : ℚ) = 0 + 10 → (2 : ℚ) ≤ 0 + 10 → (0 : ℚ) ≤ 2 + 5 →
        haveIntersection ⟨0, 0, 10, 10⟩ ⟨10, 2, 5, 5⟩ = true)) :=
  ⟨by norm_num, by norm_num,
    haveIntersection_comm_refl_touch ⟨0, 0, 10, 10⟩ ⟨10, 2, 5, 5⟩
      (by norm_num) (by norm_num)⟩

/-- C8: `reverse` always returns a rectangle with `x1 ≤ x2` and `y1 ≤ y2`,
so the derived width `x2 - x1` and height `y2 - y1` are non-negative. -/
theorem reverse_normalizes (p1 p2 : Pt) :
    (reverse p1 p2).x1 ≤ (reverse p1 p2).x2 ∧
    (reverse p1 p2).y1 ≤ (reverse p1 p2).y2 ∧
    0 ≤ (reverse p1 p2).x2 - (reverse p1 p2).x1 ∧
    0 ≤ (reverse p1 p2).y2 - (reverse p1 p2).y1 := by
  have hx : (reverse p1 p2).x1 ≤ (reverse p1 p2).x2 := by
    simp only [reverse]
    by_cases h : p1.x > p2.x
    · simp only [if_pos h]
      have := mathAbs_nonneg (p1.x - p2.x)
      linarith
    · simp only [if_neg h]
      exact le_of_not_lt h
  have hy : (reverse p1 p2).y1 ≤ (reverse p1 p2).y2 := by
    simp only [reverse]
    by_cases h : p1.y > p2.y
    · simp only [if_pos h]
      have := mathAbs_nonneg (p1.y - p2.y)
      linarith
    · simp only [if_neg h]
      exact le_of_not_lt h
  exact ⟨hx, hy, by linarith, by linarith⟩

/-- The six entries `[a b c d e f]` of the 2×3 affine matrix handed to
`decompose` (`mat[0]` … `mat[5]`). -/
structure AffineMatrix where
  a : ℝ
  b : ℝ
  c : ℝ
  d : ℝ
  e : ℝ
  f : ℝ

/-- The reference frame read by `decompose` from the layer:
`layer.getAbsolutePosition()` = `(x, y)` and `layer.getAbsoluteScale()` =
`(scaleX, scaleY)`. -/
structure LayerFrame where
  x : ℝ
  y : ℝ
  scaleX : ℝ
  scaleY : ℝ

/-- The attribute record returned by `decompose`. -/
structure DecomposeResult where
  x : ℝ
  y : ℝ
  rotation : ℝ
  scaleX : ℝ
  scaleY : ℝ
  skewX : ℝ
  skewY : ℝ

/-- Translation of `decompose(mat, layer)`, branch for branch: the base
record holds the frame-corrected translation and zeros; the first branch
fires when `a != 0 || b != 0`, the second when `c != 0 || d != 0`, the last
leaves the defaults; finally the rotation is converted to degrees. -/
noncomputable def decompose (mat : AffineMatrix) (layer : LayerFrame) :
    DecomposeResult :=
  let a := mat.a
  let b := mat.b
  let c := mat.c
  let d := mat.d
  let e := mat.e
  let f := mat.f
  let delta := a * d - b * c
  let base : DecomposeResult :=
    { x := (e - layer.x) / layer.scaleX
      y := (f - layer.y) / layer.scaleY
      rotation := 0
      scaleX := 0
      scaleY := 0
      skewX := 0
      skewY := 0 }
  let result :=
    if a ≠ 0 ∨ b ≠ 0 then
      let r := Real.sqrt (a * a + b * b)
      { base with
        rotation := if b > 0 then Real.arccos (a / r) else -Real.arccos (a / r)
        scaleX := r / layer.scaleX
        scaleY := delta / r / layer.scaleY
        skewX := Real.arctan ((a * c + b * d) / (r * r)) }
    else if c ≠ 0 ∨ d ≠ 0 then
      let s := Real.sqrt (c * c + d * d)
      { base with
        rotation :=
          Real.pi / 2 - (if d > 0 then Real.arccos (-c / s) else -Real.arccos (c / s))
        scaleX := delta / s / layer.scaleX
        scaleY := s / layer.scaleY
        skewX := 0
        skewY := Real.arctan ((a * c + b * d) / (s * s)) }
    else base
  { result with rotation := result.rotation * (180 / Real.pi) }

/-- C4: on the primary branch (`a ≠ 0` or `b ≠ 0`) of `decompose`, with a
frame of nonzero absolute scale, the result is the claimed closed form:
translation `((e-px)/sx, (f-py)/sy)`, rotation `±acos(a/r)` in degrees with
the sign taken from `b > 0`, `scaleX = r/sx`, `scaleY = (ad-bc)/r/sy`,
`skewX = atan((ac+bd)/r²)`, `skewY = 0`, where `r = sqrt(a²+b²)`. -/
theorem decompose_primary_branch (a b c d e f px py sx sy : ℝ)
    (hab : a ≠ 0 ∨ b ≠ 0) (hsx : sx ≠ 0) (hsy : sy ≠ 0) :
    decompose ⟨a, b, c, d, e, f⟩ ⟨px, py, sx, sy⟩ =
      { x := (e - px) / sx
        y := (f - py) / sy
        rotation :=
          (if b > 0 then Real.arccos (a / Real.sqrt (a * a + b * b))
           else -Real.arccos (a / Real.sqrt (a * a + b * b))) * (180 / Real.pi)
        scaleX := Real.sqrt (a * a + b * b) / sx
        scaleY := (a * d - b * c) / Real.sqrt (a * a + b * b) / sy
        skewX :=
          Real.arctan ((a * c + b * d) /
            (Real.sqrt (a * a + b * b) * Real.sqrt (a * a + b * b)))
        skewY := 0 } := by
  simp only [decompose]
  rw [if_pos hab]

/-- Witness for C4 at the identity linear part with translation `(3,4)` and
frame `(1,2)` scale `(1,1)`: the decomposition is `x=2, y=2, rotation=0,
scaleX=1, scaleY=1, skewX=0, skewY=0`. -/
theorem decompose_primary_branch_witness :
    (((1 : ℝ) ≠ 0 ∨ (0 : ℝ) ≠ 0) ∧ (1 : ℝ) ≠ 0) ∧
    decompose ⟨1, 0, 0, 1, 3, 4⟩ ⟨1, 2, 1, 1⟩ = ⟨2, 2, 0, 1, 1, 0, 0⟩ := by
  refine ⟨⟨Or.inl one_ne_zero, one_ne_zero⟩, ?_⟩
  have h := decompose_primary_branch 1 0 0 1 3 4 1 2 1 1
    (Or.inl one_ne_zero) one_ne_zero one_ne_zero
  rw [h]
  norm_num [Real.sqrt_one, Real.arccos_one, Real.arctan_zero]

/-- C9: whenever `decompose` takes its second branch (`a = 0`, `b = 0`,
`c ≠ 0` or `d ≠ 0`), the determinant `a*d - b*c` is necessarily `0`, and for
any frame of nonzero absolute scale the returned `scaleX` is `0`. -/
theorem decompose_second_branch_singular (a b c d e f px py sx sy : ℝ)
    (ha : a = 0) (hb : b = 0) (hcd : c ≠ 0 ∨ d ≠ 0)
    (hsx : sx ≠ 0) (hsy : sy ≠ 0) :
    a * d - b * c = 0 ∧
    (decompose ⟨a, b, c, d, e, f⟩ ⟨px, py, sx, sy⟩).scaleX = 0 := by
  subst ha hb
  refine ⟨by ring, ?_⟩
  simp only [decompose]
  rw [if_neg (by simp), if_pos hcd]
  simp

/-- Witness for C9 at the quarter-turn-degenerate matrix `[0 0 1 0 0 0]`
with the unit frame. -/
theorem decompose_second_branch_singular_witness :
    ((0 : ℝ) = 0 ∧ (0 : ℝ) = 0 ∧ ((1 : ℝ) ≠ 0 ∨ (0 : ℝ) ≠ 0) ∧ (1 : ℝ) ≠ 0) ∧
    ((0 : ℝ) * 0 - 0 * 1 = 0 ∧
      (decompose ⟨0, 0, 1, 0, 0, 0⟩ ⟨0, 0, 1, 1⟩).scaleX = 0) :=
  ⟨⟨rfl, rfl, Or.inl one_ne_zero, one_ne_zero⟩,
    decompose_second_branch_singular 0 0 1 0 0 0 0 0 1 1 rfl rfl
      (Or.inl one_ne_zero) one_ne_zero one_ne_zero⟩

/-- A Konva node as the selection controller sees it: `id` is `node._id`,
`hasEntityName` is `node.hasName('entity')`, `isSelectBox` is
`node.id() === 'selectBox'`, and `clientRect` is `node.getClientRect()`. -/
structure SNode where
  id : ℕ
  hasEntityName : Bool
  isSelectBox : Bool
  clientRect : Rect
deriving DecidableEq, Repr

/-- `this.nodes.has(k)` on the insertion-ordered `Map<number, Konva.Node>`
modelled as an association list. -/
def mapHas (m : List (ℕ × SNode)) (k : ℕ) : Bool :=
  m.any (fun p => p.1 == k)

/-- `this.nodes.set(k, v)`: replace in place when the key is present,
append otherwise (JS `Map` insertion-order semantics). -/
def mapSet (m : List (ℕ × SNode)) (k : ℕ) (v : SNode) : List (ℕ × SNode) :=
  if mapHas m k then m.map (fun p => if p.1 == k then (k, v) else p)
  else m ++ [(k, v)]

/-- `this.nodes.delete(k)`. -/
def mapDelete (m : List (ℕ × SNode)) (k : ℕ) : List (ℕ × SNode) :=
  m.filter (fun p => p.1 != k)

/-- State of a `KonvaSelection` instance: the `nodes` map, whether a
`transformer` currently exists (`this.transformer` non-null), and the list
of change notifications pushed on `selectionChange$` so far (each carrying
the full node map at emission time). -/
structure SelectionState where
  nodes : List (ℕ × SNode)
  transformer : Bool
  events : List (List (ℕ × SNode))
deriving DecidableEq, Repr

/-- Translation of `add(node)`: when the id is absent, insert, emit the
current map, create the transformer if there is none (then
`updateTransformer` re-attaches it); otherwise do nothing. -/
def add (s : SelectionState) (n : SNode) : SelectionState :=
  if !(mapHas s.nodes n.id) then
    let nodes' := mapSet s.nodes n.id n
    { nodes := nodes'
      transformer := true
      events := s.events ++ [nodes'] }
  else s

/-- Translation of `remove(node)`: delete the id and emit the current map
unconditionally; the transformer, if any, is only re-attached
(`updateTransformer`), never destroyed. -/
def remove (s : SelectionState) (n : SNode) : SelectionState :=
  let nodes' := mapDelete s.nodes n.id
  { nodes := nodes'
    transformer := s.transformer
    events := s.events ++ [nodes'] }

/-- Translation of `clear()`: destroy the transformer if present and clear
the map; no notification is emitted. -/
def clear (s : SelectionState) : SelectionState :=
  { nodes := []
    transformer := false
    events := s.events }

/-- Translation of the constructor: a fresh empty map and no transformer;
when an array is passed (`some l`), each node is inserted keyed by `_id`;
a non-array argument (`none`) leaves the map empty.  No event is emitted
and no transformer is created either way. -/
def construct (init : Option (List SNode)) : SelectionState :=
  match init with
  | none => { nodes := [], transformer := false, events := [] }
  | some l =>
      { nodes := l.foldl (fun m n => mapSet m n.id n) []
        transformer := false
        events := [] }

/-- States reachable from a freshly constructed empty selection by any
sequence of `add` / `remove` / `clear` calls. -/
inductive Reachable : SelectionState → Prop where
  | initial : Reachable (construct none)
  | addStep (s : SelectionState) (n : SNode) : Reachable s → Reachable (add s n)
  | removeStep (s : SelectionState) (n : SNode) : Reachable s → Reachable (remove s n)
  | clearStep (s : SelectionState) : Reachable s → Reachable (clear s)

/-- A concrete entity node used by the concrete runs below. -/
def n1 : SNode := ⟨1, true, false, ⟨0, 0, 10, 10⟩⟩

/-- Counterexample to C1 as stated: the reachable state obtained by adding
`n1` to a fresh selection and then removing it has an empty selection set
but the transformer still exists — `remove` never destroys it, so the
handle is not attached iff the set is non-empty. -/
theorem transformer_survives_emptying_remove :
    Reachable (remove (add (construct none) n1) n1) ∧
    (remove (add (construct none) n1) n1).nodes = [] ∧
    (remove (add (construct none) n1) n1).transformer = true :=
  ⟨Reachable.removeStep _ _ (Reachable.addStep _ _ Reachable.initial),
    by decide, by decide⟩

/-- C1 (amended): in every reachable state, if the selection set is
non-empty then the transformer exists; the converse direction fails
because a `remove` that empties the set leaves the transformer in place —
only `clear` destroys it (and yields an empty set). -/
theorem transformer_exists_of_nonempty (s : SelectionState)
    (hs : Reachable s) (hne : s.nodes ≠ []) : s.transformer = true := by
  induction hs with
  | initial => simp [construct] at hne
  | addStep s n _ ih =>
      by_cases h : mapHas s.nodes n.id
      · have hid : add s n = s := by simp [add, h]
        rw [hid] at hne ⊢
        exact ih hne
      · simp [add, h]
  | removeStep s n hr ih =>
      have hne' : s.nodes ≠ [] := by
        intro h
        apply hne
        simp [remove, mapDelete, h]
      simpa [remove] using ih hne'
  | clearStep s hr ih => simp [clear] at hne

/-- Witness for C1's amended invariant at the reachable state
`add (construct none) n1`. -/
theorem transformer_exists_of_nonempty_witness :
    Reachable (add (construct none) n1) ∧
    (add (construct none) n1).nodes ≠ [] ∧
    (add (construct none) n1).transformer = true :=
  ⟨Reachable.addStep _ _ Reachable.initial, by decide,
    transformer_exists_of_nonempty (add (construct none) n1)
      (Reachable.addStep _ _ Reachable.initial) (by decide)⟩

lemma mapHas_eq_true_iff (m : List (ℕ × SNode)) (k : ℕ) :
    mapHas m k = true ↔ ∃ p ∈ m, p.1 = k := by
  simp [mapHas, List.any_eq_true, beq_iff_eq]

lemma mapHas_eq_false_iff (m : List (ℕ × SNode)) (k : ℕ) :
    mapHas m k = false ↔ ∀ p ∈ m, p.1 ≠ k := by
  rw [← Bool.not_eq_true, mapHas_eq_true_iff]
  push_neg
  rfl

lemma mapHas_mapSet_self (m : List (ℕ × SNode)) (k : ℕ) (v : SNode) :
    mapHas (mapSet m k v) k = true := by
  by_cases hk : mapHas m k = true
  · simp only [mapSet, hk, if_true]
    rw [mapHas_eq_true_iff] at hk ⊢
    obtain ⟨p, hp, hpk⟩ := hk
    refine ⟨if p.1 == k then (k, v) else p, List.mem_map_of_mem _ hp, ?_⟩
    simp [hpk]
  · simp only [mapSet, hk, if_false]
    rw [mapHas_eq_true_iff]
    exact ⟨(k, v), by simp, rfl⟩

lemma mapHas_mapSet_ne (m : List (ℕ × SNode)) (k : ℕ) (v : SNode) (j : ℕ)
    (hj : k ≠ j) : mapHas (mapSet m k v) j = mapHas m j := by
  unfold mapSet
  by_cases hk : mapHas m k = true
  · rw [if_pos hk]
    unfold mapHas
    rw [List.any_map]
    congr 1
    funext p
    by_cases hpk : p.1 = k
    · simp [Function.comp, hpk, hj]
    · simp [Function.comp, hpk]
  · rw [if_neg hk]
    unfold mapHas
    rw [List.any_append]
    simp [hj]

lemma mapHas_mapDelete_self (m : List (ℕ × SNode)) (k : ℕ) :
    mapHas (mapDelete m k) k = false := by
  rw [mapHas_eq_false_iff]
  intro p hp
  simp only [mapDelete, List.mem_filter, bne_iff_ne] at hp
  exact hp.2

lemma mapHas_mapDelete_ne (m : List (ℕ × SNode)) (k : ℕ) (j : ℕ)
    (hj : k ≠ j) : mapHas (mapDelete m k) j = mapHas m j := by
  by_cases h : mapHas m j = true
  · rw [h, mapHas_eq_true_iff]
    rw [mapHas_eq_true_iff] at h
    obtain ⟨p, hp, hpj⟩ := h
    refine ⟨p, ?_, hpj⟩
    simp only [mapDelete, List.mem_filter, bne_iff_ne]
    exact ⟨hp, by rw [hpj]; exact fun hh => hj hh.symm⟩
  · rw [Bool.not_eq_true] at h
    rw [h, mapHas_eq_false_iff]
    rw [mapHas_eq_false_iff] at h
    intro p hp
    exact h p (List.mem_of_mem_filter hp)

lemma mapDelete_of_not_has (m : List (ℕ × SNode)) (k : ℕ)
    (h : mapHas m k = false) : mapDelete m k = m := by
  rw [mapHas_eq_false_iff] at h
  apply List.filter_eq_self.mpr
  intro p hp
  simpa [bne_iff_ne] using h p hp

lemma mapDelete_length (m : List (ℕ × SNode)) (k : ℕ)
    (hnd : (m.map Prod.fst).Nodup) (h : mapHas m k = true) :
    (mapDelete m k).length + 1 = m.length := by
  induction m with
  | nil => simp [mapHas] at h
  | cons p t ih =>
      rw [List.map_cons, List.nodup_cons] at hnd
      by_cases hpk : p.1 = k
      · have ht : mapHas t k = false := by
          rw [mapHas_eq_false_iff]
          intro q hq hqk
          have hmem : p.1 ∈ t.map Prod.fst := by
            rw [hpk, ← hqk]
            exact List.mem_map_of_mem Prod.fst hq
          exact hnd.1 hmem
        have : mapDelete (p :: t) k = mapDelete t k := by
          simp [mapDelete, List.filter_cons, hpk]
        rw [this, mapDelete_of_not_has t k ht]
        simp
      · have hh : mapHas t k = true := by
          rw [mapHas_eq_true_iff] at h ⊢
          obtain ⟨q, hq, hqk⟩ := h
          rcases List.mem_cons.mp hq with rfl | hq'
          · exact absurd hqk hpk
          · exact ⟨q, hq', hqk⟩
        have : mapDelete (p :: t) k = p :: mapDelete t k := by
          simp [mapDelete, List.filter_cons, hpk]
        rw [this]
        simp only [List.length_cons]
        rw [← ih hnd.2 hh]

/-- C2 (amended): `add` of an absent entity inserts it (size +1) and emits
exactly one notification carrying the full current set containing it;
`add` of a present entity is a complete no-op; `remove` of a present entity
deletes it and emits exactly one notification; `remove` of an absent entity
leaves the set unchanged but — unlike the original claim — still emits
exactly one notification, carrying the unchanged set. -/
theorem add_remove_event_semantics (s : SelectionState) (n : SNode)
    (hnd : (s.nodes.map Prod.fst).Nodup) :
    (mapHas s.nodes n.id = false →
      (add s n).nodes.length = s.nodes.length + 1 ∧
      mapHas (add s n).nodes n.id = true ∧
      (add s n).events = s.events ++ [(add s n).nodes]) ∧
    (mapHas s.nodes n.id = true → add s n = s) ∧
    (mapHas s.nodes n.id = true →
      (remove s n).nodes.length + 1 = s.nodes.length ∧
      mapHas (remove s n).nodes n.id = false ∧
      (remove s n).events = s.events ++ [(remove s n).nodes]) ∧
    (mapHas s.nodes n.id = false →
      (remove s n).nodes = s.nodes ∧
      (remove s n).events = s.events ++ [s.nodes]) := by
  refine ⟨?_, ?_, ?_, ?_⟩
  · intro h
    have hset : mapSet s.nodes n.id n = s.nodes ++ [(n.id, n)] := by
      simp [mapSet, h]
    refine ⟨?_, ?_, ?_⟩
    · simp [add, h, hset]
    · simp only [add, h, Bool.not_false, if_true]
      exact mapHas_mapSet_self _ _ _
    · simp [add, h]
  · intro h
    simp [add, h]
  · intro h
    exact ⟨mapDelete_length s.nodes n.id hnd h, mapHas_mapDelete_self _ _, rfl⟩
  · intro h
    exact ⟨mapDelete_of_not_has _ _ h, by simp [remove, mapDelete_of_not_has _ _ h]⟩

/-- Witness for C2's amended semantics at the empty initial state and the
concrete entity `n1`. -/
theorem add_remove_event_semantics_witness :
    ((construct none).nodes.map Prod.fst).Nodup ∧
    ((mapHas (construct none).nodes n1.id = false →
      (add (construct none) n1).nodes.length = (construct none).nodes.length + 1 ∧
      mapHas (add (construct none) n1).nodes n1.id = true ∧
      (add (construct none) n1).events =
        (construct none).events ++ [(add (construct none) n1).nodes]) ∧
    (mapHas (construct none).nodes n1.id = true →
      add (construct none) n1 = construct none) ∧
    (mapHas (construct none).nodes n1.id = true →
      (remove (construct none) n1).nodes.length + 1 = (construct none).nodes.length ∧
      mapHas (remove (construct none) n1).nodes n1.id = false ∧
      (remove (construct none) n1).events =
        (construct none).events ++ [(remove (construct none) n1).nodes]) ∧
    (mapHas (construct none).nodes n1.id = false →
      (remove (construct none) n1).nodes = (construct none).nodes ∧
      (remove (construct none) n1).events =
        (construct none).events ++ [(construct none).nodes])) :=
  ⟨by decide, add_remove_event_semantics (construct none) n1 (by decide)⟩

/-- Counterexample to C2 as stated: removing the absent entity `n1` from
the empty initial selection leaves the set unchanged yet still emits a
change notification (the event list grows by one). -/
theorem remove_absent_still_emits :
    (remove (construct none) n1).nodes = (construct none).nodes ∧
    (remove (construct none) n1).events.length =
      (construct none).events.length + 1 := by
  decide

lemma foldl_mapSet_has (l : List SNode) (m : List (ℕ × SNode)) (k : ℕ)
    (h : mapHas m k = true ∨ ∃ n ∈ l, n.id = k) :
    mapHas (l.foldl (fun acc n => mapSet acc n.id n) m) k = true := by
  induction l generalizing m with
  | nil =>
      rcases h with h | ⟨n, hn, _⟩
      · exact h
      · exact absurd hn (List.not_mem_nil n)
  | cons a t ih =>
      simp only [List.foldl_cons]
      apply ih
      rcases h with h | ⟨n, hn, hk⟩
      · left
        by_cases hak : a.id = k
        · rw [← hak] at h ⊢
          exact mapHas_mapSet_self m a.id a
        · rw [mapHas_mapSet_ne m a.id a k hak]
          exact h
      · rcases List.mem_cons.mp hn with rfl | hn'
        · left
          rw [← hk]
          exact mapHas_mapSet_self m n.id n
        · right
          exact ⟨n, hn', hk⟩

/-- C10: the constructor with an initial array inserts every listed node
keyed by its identity but emits no change notification and creates no
transformer; the constructor with no array yields the empty selection. -/
theorem construct_spec (l : List SNode) :
    (construct (some l)).transformer = false ∧
    (construct (some l)).events = [] ∧
    (∀ n, n ∈ l → mapHas (construct (some l)).nodes n.id = true) ∧
    (construct none).nodes = [] ∧
    (construct none).transformer = false ∧
    (construct none).events = [] := by
  refine ⟨rfl, rfl, ?_, rfl, rfl, rfl⟩
  intro n hn
  exact foldl_mapSet_has l [] n.id (Or.inr ⟨n, hn, rfl⟩)

/-- Witness for C10 at the one-element initial array `[n1]`. -/
theorem construct_spec_witness :
    (construct (some [n1])).transformer = false ∧
    (construct (some [n1])).events = [] ∧
    mapHas (construct (some [n1])).nodes n1.id = true ∧
    (construct none).nodes = [] :=
  ⟨(construct_spec [n1]).1, (construct_spec [n1]).2.1,
    (construct_spec [n1]).2.2.1 n1 (List.mem_singleton.mpr rfl),
    (construct_spec [n1]).2.2.2.1⟩

/-- The select box rectangle as `updateDrag` assembles it: the normalized
drag rectangle `reverse(posStart, posNow)` written as
`{x: x1, y: y1, width: x2-x1, height: y2-y1}` (its client rect with stroke
and shadow skipped). -/
def boxRectOf (posStart posIn : Pt) : Rect :=
  let posRect := reverse posStart posIn
  { x := posRect.x1
    y := posRect.y1
    width := posRect.x2 - posRect.x1
    height := posRect.y2 - posRect.y1 }

/-- The body of `updateDrag`'s collision loop for one node:
`if (haveIntersection(nodes[i].getClientRect(), selectBoxRect) && nodes[i].hasName('entity')) add else remove`. -/
def marqueeStep (box : Rect) (st : SelectionState) (n : SNode) : SelectionState :=
  if haveIntersection n.clientRect box && n.hasEntityName then add st n
  else remove st n

/-- Translation of `updateDrag(posIn)`: update `posNow`, normalize the drag
rectangle, take the working layer's children minus the select box, and run
the collision loop over them. -/
def updateDrag (children : List SNode) (posStart posIn : Pt)
    (s : SelectionState) : SelectionState :=
  let selectBoxRect := boxRectOf posStart posIn
  let nodes := children.filter (fun n => !n.isSelectBox)
  nodes.foldl (marqueeStep selectBoxRect) s

lemma mapHas_add_self (s : SelectionState) (n : SNode) :
    mapHas (add s n).nodes n.id = true := by
  unfold add
  by_cases h : mapHas s.nodes n.id
  · simp only [h, Bool.not_true, Bool.false_eq_true, if_false]
  · rw [Bool.not_eq_true] at h
    simp only [h, Bool.not_false, if_true]
    exact mapHas_mapSet_self _ _ _

lemma mapHas_add_ne (s : SelectionState) (n : SNode) (k : ℕ)
    (hk : k ≠ n.id) : mapHas (add s n).nodes k = mapHas s.nodes k := by
  unfold add
  by_cases h : mapHas s.nodes n.id
  · simp only [h, Bool.not_true, Bool.false_eq_true, if_false]
  · rw [Bool.not_eq_true] at h
    simp only [h, Bool.not_false, if_true]
    exact mapHas_mapSet_ne _ _ _ _ (fun hh => hk hh.symm)

lemma mapHas_remove_self (s : SelectionState) (n : SNode) :
    mapHas (remove s n).nodes n.id = false :=
  mapHas_mapDelete_self _ _

lemma mapHas_remove_ne (s : SelectionState) (n : SNode) (k : ℕ)
    (hk : k ≠ n.id) : mapHas (remove s n).nodes k = mapHas s.nodes k :=
  mapHas_mapDelete_ne _ _ _ (fun hh => hk hh.symm)

lemma marqueeStep_has_self (box : Rect) (st : SelectionState) (n : SNode) :
    mapHas (marqueeStep box st n).nodes n.id =
      (haveIntersection n.clientRect box && n.hasEntityName) := by
  unfold marqueeStep
  by_cases h : (haveIntersection n.clientRect box && n.hasEntityName) = true
  · rw [if_pos h, h]
    exact mapHas_add_self st n
  · rw [if_neg h]
    rw [Bool.not_eq_true] at h
    rw [h]
    exact mapHas_remove_self st n

lemma marqueeStep_has_ne (box : Rect) (st : SelectionState) (n : SNode)
    (k : ℕ) (hk : k ≠ n.id) :
    mapHas (marqueeStep box st n).nodes k = mapHas st.nodes k := by
  unfold marqueeStep
  by_cases h : (haveIntersection n.clientRect box && n.hasEntityName) = true
  · rw [if_pos h]
    exact mapHas_add_ne st n k hk
  · rw [if_neg h]
    exact mapHas_remove_ne st n k hk

lemma foldl_marqueeStep_not_mem (box : Rect) (l : List SNode)
    (st : SelectionState) (k : ℕ) (h : ∀ n ∈ l, n.id ≠ k) :
    mapHas ((l.foldl (marqueeStep box) st).nodes) k = mapHas st.nodes k := by
  induction l generalizing st with
  | nil => rfl
  | cons a t ih =>
      rw [List.foldl_cons, ih _ (fun n hn => h n (List.mem_cons_of_mem a hn)),
        marqueeStep_has_ne box st a k
          (fun hk => h a (List.mem_cons_self a t) hk.symm)]

lemma foldl_marqueeStep_mem (box : Rect) (l : List SNode)
    (st : SelectionState) (n : SNode)
    (hnd : (l.map (fun m => m.id)).Nodup) (hn : n ∈ l) :
    mapHas ((l.foldl (marqueeStep box) st).nodes) n.id =
      (haveIntersection n.clientRect box && n.hasEntityName) := by
  induction l generalizing st with
  | nil => exact absurd hn (List.not_mem_nil n)
  | cons a t ih =>
      rw [List.map_cons, List.nodup_cons] at hnd
      rcases List.mem_cons.mp hn with rfl | hn'
      · have hne : ∀ m ∈ t, m.id ≠ n.id := by
          intro m hm he
          exact hnd.1 (he ▸ List.mem_map_of_mem (fun x => x.id) hm)
        rw [List.foldl_cons, foldl_marqueeStep_not_mem box t _ n.id hne,
          marqueeStep_has_self]
      · rw [List.foldl_cons]
        exact ih _ hnd.2 hn'

/-- C3: after any `updateDrag` with current normalized rectangle
`boxRectOf posStart posIn`, and for any prior selection whose members all
come from the working layer, a non-select-box child of the layer is
selected exactly when its client rect intersects the rectangle and it is
tagged `entity`, and every selected id comes from such a child: the
selection equals exactly the set of intersecting selectable entities,
regardless of the prior selection contents. -/
theorem updateDrag_membership (children : List SNode) (posStart posIn : Pt)
    (s : SelectionState)
    (hnd : ((children.filter (fun n => !n.isSelectBox)).map
      (fun m => m.id)).Nodup)
    (hsub : ∀ k, mapHas s.nodes k = true →
      ∃ n ∈ children.filter (fun n => !n.isSelectBox), n.id = k) :
    (∀ n ∈ children, n.isSelectBox = false →
      mapHas (updateDrag children posStart posIn s).nodes n.id =
        (haveIntersection n.clientRect (boxRectOf posStart posIn) &&
          n.hasEntityName)) ∧
    (∀ k, mapHas (updateDrag children posStart posIn s).nodes k = true →
      ∃ n ∈ children, n.isSelectBox = false ∧ n.id = k ∧
        haveIntersection n.clientRect (boxRectOf posStart posIn) = true ∧
        n.hasEntityName = true) := by
  constructor
  · intro n hn hbox
    have hmem : n ∈ children.filter (fun n => !n.isSelectBox) := by
      rw [List.mem_filter]
      exact ⟨hn, by rw [hbox]; rfl⟩
    exact foldl_marqueeStep_mem _ _ s n hnd hmem
  · intro k hk
    have hud : updateDrag children posStart posIn s =
        (children.filter (fun n => !n.isSelectBox)).foldl
          (marqueeStep (boxRectOf posStart posIn)) s := rfl
    rw [hud] at hk
    by_cases hmem : ∃ n ∈ children.filter (fun n => !n.isSelectBox), n.id = k
    · obtain ⟨n, hn, hnk⟩ := hmem
      rw [← hnk] at hk
      rw [foldl_marqueeStep_mem _ _ s n hnd hn, Bool.and_eq_true] at hk
      rw [List.mem_filter] at hn
      refine ⟨n, hn.1, ?_, hnk, hk.1, hk.2⟩
      have := hn.2
      revert this
      cases n.isSelectBox <;> simp
    · push_neg at hmem
      have hpre : ∀ n ∈ children.filter (fun n => !n.isSelectBox),
          n.id ≠ k := hmem
      rw [foldl_marqueeStep_not_mem _ _ s k hpre] at hk
      obtain ⟨n, hn, hnk⟩ := hsub k hk
      exact absurd hnk (hmem n hn)

/-- A concrete non-intersecting entity and the select box node, for the
witness runs. -/
def n2 : SNode := ⟨2, true, false, ⟨100, 100, 10, 10⟩⟩

/-- The select box itself, as it appears among the layer children. -/
def sb : SNode := ⟨99, false, true, ⟨0, 0, 0, 0⟩⟩

/-- Witness for C3: marquee from `(-1,-1)` to `(20,20)` over children
`[n1, n2, sb]` selects `n1` (intersecting entity), not `n2` (disjoint), and
ignores the select box. -/
theorem updateDrag_membership_witness :
    mapHas (updateDrag [n1, n2, sb] ⟨-1, -1⟩ ⟨20, 20⟩ (construct none)).nodes
      n1.id = true ∧
    mapHas (updateDrag [n1, n2, sb] ⟨-1, -1⟩ ⟨20, 20⟩ (construct none)).nodes
      n2.id = false := by
  have h := updateDrag_membership [n1, n2, sb] ⟨-1, -1⟩ ⟨20, 20⟩
    (construct none) (by decide)
    (fun k hk => by simp [construct, mapHas] at hk)
  have h1 := h.1 n1 (by simp) rfl
  have h2 := h.1 n2 (by simp) rfl
  constructor
  · rw [h1]
    norm_num [n1, haveIntersection, boxRectOf, reverse, mathAbs]
  · rw [h2]
    norm_num [n2, haveIntersection, boxRectOf, reverse, mathAbs]

lemma boxRectOf_self (p : Pt) :
    boxRectOf p p = ⟨p.x, p.y, 0, 0⟩ := by
  simp [boxRectOf, reverse]

lemma eq_nil_of_forall_not_has (m : List (ℕ × SNode))
    (h : ∀ k, mapHas m k = false) : m = [] := by
  cases m with
  | nil => rfl
  | cons p t =>
      have hp := h p.1
      rw [mapHas_eq_false_iff] at hp
      exact absurd rfl (hp p (List.mem_cons_self p t))

/-- Counterexample to C7 as stated: a zero-area marquee whose point lies
inside an entity's client rect does select that entity — the degenerate
rectangle `{x:5, y:5, w:0, h:0}` intersects the rect `{0,0,10,10}` under
the strict-inequality test, so the collision loop adds the entity and the
selection is not empty. -/
theorem zero_area_marquee_point_hit :
    (updateDrag [n1] ⟨5, 5⟩ ⟨5, 5⟩ (construct none)).nodes = [(1, n1)] ∧
    (updateDrag [n1] ⟨5, 5⟩ ⟨5, 5⟩ (construct none)).nodes ≠ [] := by
  have hcond : (haveIntersection n1.clientRect (boxRectOf ⟨5, 5⟩ ⟨5, 5⟩) &&
      n1.hasEntityName) = true := by
    norm_num [n1, haveIntersection, boxRectOf, reverse, mathAbs]
  have hud : updateDrag [n1] ⟨5, 5⟩ ⟨5, 5⟩ (construct none) =
      marqueeStep (boxRectOf ⟨5, 5⟩ ⟨5, 5⟩) (construct none) n1 := rfl
  rw [hud]
  unfold marqueeStep
  rw [if_pos hcond]
  exact ⟨by decide, by decide⟩

/-- C7 (amended): a zero-area marquee update (start and current point
coincide) selects exactly the entities whose client rect contains the
point under the closed intersection test; in particular, when the point
intersects no selectable entity's client rect, the selection set is empty
after the update. -/
theorem zero_area_marquee_outside_selects_nothing (children : List SNode)
    (p : Pt) (s : SelectionState)
    (hnd : ((children.filter (fun n => !n.isSelectBox)).map
      (fun m => m.id)).Nodup)
    (hsub : ∀ k, mapHas s.nodes k = true →
      ∃ n ∈ children.filter (fun n => !n.isSelectBox), n.id = k)
    (hout : ∀ n ∈ children, n.isSelectBox = false → n.hasEntityName = true →
      haveIntersection n.clientRect ⟨p.x, p.y, 0, 0⟩ = false) :
    (updateDrag children p p s).nodes = [] := by
  apply eq_nil_of_forall_not_has
  intro k
  have hud : updateDrag children p p s =
      (children.filter (fun n => !n.isSelectBox)).foldl
        (marqueeStep (boxRectOf p p)) s := rfl
  rw [hud]
  by_cases hmem : ∃ n ∈ children.filter (fun n => !n.isSelectBox), n.id = k
  · obtain ⟨n, hn, hnk⟩ := hmem
    rw [← hnk, foldl_marqueeStep_mem _ _ s n hnd hn, boxRectOf_self]
    rw [List.mem_filter] at hn
    have hbox : n.isSelectBox = false := by
      have := hn.2
      revert this
      cases n.isSelectBox <;> simp
    by_cases hent : n.hasEntityName = true
    · rw [hout n hn.1 hbox hent, Bool.false_and]
    · rw [Bool.not_eq_true] at hent
      rw [hent, Bool.and_false]
  · push_neg at hmem
    rw [foldl_marqueeStep_not_mem _ _ s k hmem]
    by_cases hk : mapHas s.nodes k = true
    · obtain ⟨n, hn, hnk⟩ := hsub k hk
      exact absurd hnk (hmem n hn)
    · rwa [Bool.not_eq_true] at hk

/-- Witness for C7's amended statement: a zero-area marquee at `(50,50)`
over the children `[n1, sb]` (whose only entity rect is `{0,0,10,10}`)
leaves the selection empty. -/
theorem zero_area_marquee_outside_witness :
    (updateDrag [n1, sb] ⟨50, 50⟩ ⟨50, 50⟩ (construct none)).nodes = [] := by
  apply zero_area_marquee_outside_selects_nothing [n1, sb] ⟨50, 50⟩
    (construct none) (by decide)
  · intro k hk
    simp [construct, mapHas] at hk
  · intro n hn hbox hent
    rcases List.mem_cons.mp hn with rfl | hn'
    · norm_num [n1, haveIntersection]
    · rcases List.mem_cons.mp hn' with rfl | hn''
      · rw [show sb.isSelectBox = true from rfl] at hbox
        exact absurd hbox (by simp)
      · exact absurd hn'' (List.not_mem_nil n)

/-- State of the layer's entities during a drag of the target entity `t`:
the live positions of all nodes (`node.position()`) and the controller's
`oldPosition` field. -/
structure GroupDragState where
  pos : ℕ → ℚ × ℚ
  old : ℚ × ℚ

/-- Translation of the `dragstart` handler:
`this.oldPosition = e.target.position()`. -/
def dragStart (t : ℕ) (pos0 : ℕ → ℚ × ℚ) : GroupDragState :=
  { pos := pos0, old := pos0 t }

/-- Translation of the `dragmove` handler for one frame in which the
renderer has already moved the drag target to `p`: compute
`diffPos = target.position() - oldPosition`, `move(diffPos)` every selected
node other than the target, then set `oldPosition = target.position()`. -/
def dragMove (sel : List ℕ) (t : ℕ) (st : GroupDragState)
    (p : ℚ × ℚ) : GroupDragState :=
  let pos1 : ℕ → ℚ × ℚ := fun i => if i = t then p else st.pos i
  let diff : ℚ × ℚ := (p.1 - st.old.1, p.2 - st.old.2)
  let pos2 : ℕ → ℚ × ℚ := fun i =>
    if i ∈ sel ∧ i ≠ t then ((pos1 i).1 + diff.1, (pos1 i).2 + diff.2)
    else pos1 i
  { pos := pos2, old := p }

/-- A whole drag gesture: `dragstart` on the target at its current
position, then one `dragmove` per frame position in `ps`. -/
def dragRun (sel : List ℕ) (t : ℕ) (pos0 : ℕ → ℚ × ℚ)
    (ps : List (ℚ × ℚ)) : GroupDragState :=
  ps.foldl (dragMove sel t) (dragStart t pos0)

lemma dragMove_old_eq_pos (sel : List ℕ) (t : ℕ) (st : GroupDragState)
    (p : ℚ × ℚ) : (dragMove sel t st p).old = (dragMove sel t st p).pos t := by
  simp [dragMove]

lemma dragRun_invariant (sel : List ℕ) (t : ℕ) (ps : List (ℚ × ℚ))
    (st : GroupDragState) (hold : st.old = st.pos t) :
    (ps.foldl (dragMove sel t) st).old = (ps.foldl (dragMove sel t) st).pos t ∧
    ∀ i ∈ sel, i ≠ t →
      (ps.foldl (dragMove sel t) st).pos i =
        ((st.pos i).1 + ((ps.foldl (dragMove sel t) st).pos t).1 - (st.pos t).1,
         (st.pos i).2 + ((ps.foldl (dragMove sel t) st).pos t).2 - (st.pos t).2) := by
  induction ps generalizing st with
  | nil =>
      refine ⟨hold, fun i hi hit => ?_⟩
      simp
  | cons p ps ih =>
      rw [List.foldl_cons]
      have hold' : (dragMove sel t st p).old = (dragMove sel t st p).pos t :=
        dragMove_old_eq_pos sel t st p
      obtain ⟨h1, h2⟩ := ih (dragMove sel t st p) hold'
      refine ⟨h1, fun i hi hit => ?_⟩
      rw [h2 i hi hit]
      have hpt : (dragMove sel t st p).pos t = p := by
        simp [dragMove]
      have hpi : (dragMove sel t st p).pos i =
          ((st.pos i).1 + p.1 - (st.pos t).1,
           (st.pos i).2 + p.2 - (st.pos t).2) := by
        simp only [dragMove]
        rw [if_pos ⟨hi, hit⟩, if_neg hit]
        rw [hold]
        exact Prod.ext (by ring) (by ring)
      rw [hpt, hpi]
      exact Prod.ext (by dsimp; ring) (by dsimp; ring)

/-- C5: over any number of drag-move frames of the target entity `t`, every
other selected entity ends at its original position translated by exactly
the target's total accumulated delta `D = finalPos(t) - originalPos(t)`:
the selection co-moves rigidly. -/
theorem group_move_rigid (sel : List ℕ) (t : ℕ) (pos0 : ℕ → ℚ × ℚ)
    (ps : List (ℚ × ℚ)) (i : ℕ) (hi : i ∈ sel) (hit : i ≠ t) :
    (dragRun sel t pos0 ps).pos i =
      ((pos0 i).1 + ((dragRun sel t pos0 ps).pos t).1 - (pos0 t).1,
       (pos0 i).2 + ((dragRun sel t pos0 ps).pos t).2 - (pos0 t).2) :=
  (dragRun_invariant sel t ps (dragStart t pos0) rfl).2 i hi hit

/-- Witness for C5: three selected entities `1, 2, 3` starting at
`(k, k)`, entity `1` dragged through frames `(5,7)` then `(9,4)`
(total delta `(8,3)`); entity `2` ends at `(2+8, 2+3) = (10,5)`. -/
theorem group_move_rigid_witness :
    (2 ∈ [1, 2, 3]) ∧ 2 ≠ 1 ∧
    (dragRun [1, 2, 3] 1 (fun i => ((i : ℚ), (i : ℚ)))
      [(5, 7), (9, 4)]).pos 2 = (10, 5) := by
  refine ⟨by decide, by decide, ?_⟩
  have h := group_move_rigid [1, 2, 3] 1 (fun i => ((i : ℚ), (i : ℚ)))
    [(5, 7), (9, 4)] 2 (by decide) (by decide)
  rw [h]
  have hfinal : (dragRun [1, 2, 3] 1 (fun i => ((i : ℚ), (i : ℚ)))
      [(5, 7), (9, 4)]).pos 1 = (9, 4) := by
    norm_num [dragRun, dragMove, dragStart]
  rw [hfinal]
  norm_num

end KonvaSelection
